import Mathlib

/-!
Verification of the binserde compact binary encoding engine.

The development shallowly embeds the engine over pure Lean data:
byte streams are `List Nat` (each element `< 256`), strings are their
UTF-8 byte content (`List Nat`), and the value universe of the
serializer/deserializer capability contract is a deep embedding
(`Value`/`Ty`).  The orchestration layer and the `Error` taxonomy are
translated from `src/lib.rs`; the varint codec, `Mode`, the dedup
context and the two traversal passes live in modules that are not part
of the sources, so they are modelled from the specification (their
doc comments say so explicitly).
-/

namespace Binserde

/-- Translated from `src/lib.rs` (`enum Error`): the fallible-result
taxonomy.  Payloads that only carry diagnostic detail of the wrapped
foreign error (`io::Error`, `TryFromIntError`, `FromUtf8Error`) are
dropped; `StrOutOfRange` keeps the offending index and `Custom` keeps
its message. -/
inductive Error where
  | Io : Error
  | TryFromInt : Error
  | InvalidUtf8 : Error
  | StrOutOfRange : Nat → Error
  | Custom : String → Error
  deriving DecidableEq, Repr

/-- Modelled from the spec: `Mode` (module `serde` is absent from
`src/`), an immutable value object with the two feature flags
(spec section 3). -/
structure Mode where
  use_dedup : Bool
  fixed_size_use_varint : Bool
  deriving DecidableEq, Repr

/-- Modelled from the spec: `Mode::default()`, both flags off. -/
def Mode.default : Mode := ⟨false, false⟩

/-- Modelled from the spec: `Mode::dedup()`, dedup on. -/
def Mode.dedup : Mode := ⟨true, false⟩

/-- Modelled from the spec: the builder toggling
`fixed_size_use_varint`. -/
def Mode.with_fixed_size_use_varint (m : Mode) (b : Bool) : Mode :=
  { m with fixed_size_use_varint := b }

/-- Modelled from the spec: the varint encoder (module `varint` is
absent from `src/`).  7-bit groups, least significant first, high bit
set on every byte but the last.  The fuel bounds the group count; the
public entry point uses fuel 10, which is exact for every input below
`2 ^ 70` and in particular for every 64-bit integer. -/
def varintEncodeF : Nat → Nat → List Nat
  | 0, _ => []
  | f + 1, n => if n < 128 then [n] else (n % 128 + 128) :: varintEncodeF f (n / 128)

/-- Modelled from the spec: varint encoding of an unsigned 64-bit
integer. -/
def varintEncode (n : Nat) : List Nat := varintEncodeF 10 n

/-- Message of the overflow condition raised when a varint runs past
the 64-bit range. -/
def varintOverflowMsg : String := "varint too long"

/-- Message of the condition raised when an enum discriminant does not
name a declared variant. -/
def badDiscriminantMsg : String := "invalid enum discriminant"

/-- Modelled from the spec: the varint decoder.  Reads groups until a
byte with the high bit clear; more than 10 groups is the overflow
condition; running out of input is an I/O failure. -/
def varintDecodeF : Nat → List Nat → Except Error (Nat × List Nat)
  | 0, _ => .error (.Custom varintOverflowMsg)
  | _ + 1, [] => .error .Io
  | f + 1, b :: rest =>
    if b < 128 then .ok (b, rest)
    else
      match varintDecodeF f rest with
      | .ok (n, rest1) => .ok (b % 128 + 128 * n, rest1)
      | .error e => .error e

/-- Modelled from the spec: varint decoding with the 10-group limit. -/
def varintDecode (bs : List Nat) : Except Error (Nat × List Nat) := varintDecodeF 10 bs

/-- The value described by a varint byte run: 7-bit groups, least
significant group first. -/
def varintValue (bs : List Nat) : Nat := bs.foldr (fun b acc => b % 128 + 128 * acc) 0

/-- Modelled from the spec: the zig-zag transform (`n ≥ 0 → 2n`,
`n < 0 → -2n - 1`). -/
def zigzag (i : Int) : Nat := if 0 ≤ i then 2 * i.toNat else 2 * (-i).toNat - 1

/-- Modelled from the spec: the inverse zig-zag transform. -/
def unzigzag (n : Nat) : Int := if n % 2 = 0 then ((n / 2 : Nat) : Int) else -((n / 2 : Nat) : Int) - 1

/-- Little-endian fixed-width byte run of a natural number (the
implementer-chosen raw representation of fixed-width integers when
`fixed_size_use_varint` is off). -/
def natToLE : Nat → Nat → List Nat
  | 0, _ => []
  | k + 1, n => n % 256 :: natToLE k (n / 256)

/-- Reads a little-endian fixed-width byte run; running out of input is
an I/O failure. -/
def readLE : Nat → List Nat → Except Error (Nat × List Nat)
  | 0, input => .ok (0, input)
  | _ + 1, [] => .error .Io
  | k + 1, b :: rest =>
    match readLE k rest with
    | .ok (n, rest1) => .ok (b % 256 + 256 * n, rest1)
    | .error e => .error e

/-- Two's-complement 16-bit image of a signed 16-bit integer. -/
def i16ToU16 (i : Int) : Nat := (i % 65536).toNat

/-- Signed reading of a 16-bit two's-complement word. -/
def u16ToI16 (n : Nat) : Int := if n < 32768 then (n : Int) else (n : Int) - 65536

/-- Modelled from the spec: the string pool (module `dedup` is absent
from `src/`).  Insertion-ordered list of the unique strings; a
string's index is its position. -/
structure DedupCtx where
  strings : List (List Nat)
  deriving DecidableEq, Repr

/-- Modelled from the spec: `DedupContext::new()`, the empty pool. -/
def DedupCtx.new : DedupCtx := ⟨[]⟩

/-- Position of the first occurrence of `s` in a string list. -/
def listIndexOf (s : List Nat) : List (List Nat) → Nat
  | [] => 0
  | t :: ts => if t = s then 0 else listIndexOf s ts + 1

/-- Modelled from the spec: `intern(s)` returns the existing index of
`s` when it was seen before, else assigns the next index and records
`s`. -/
def DedupCtx.intern (s : List Nat) (ctx : DedupCtx) : Nat × DedupCtx :=
  if s ∈ ctx.strings then (listIndexOf s ctx.strings, ctx)
  else (ctx.strings.length, ⟨ctx.strings ++ [s]⟩)

/-- Modelled from the spec: `lookup(index)` fails with the
out-of-range condition when `index ≥ count`. -/
def DedupCtx.lookup (ctx : DedupCtx) (i : Nat) : Except Error (List Nat) :=
  match ctx.strings[i]? with
  | some s => .ok s
  | none => .error (.StrOutOfRange i)

/-- Wire form of the table entries: `varint(byte_length) ++ bytes`, in
index order. -/
def writeEntries : List (List Nat) → List Nat
  | [] => []
  | s :: ss => varintEncode s.length ++ s ++ writeEntries ss

/-- Modelled from the spec: `write_to` emits `varint(count)` followed
by the entries in index order. -/
def DedupCtx.write_to (ctx : DedupCtx) : List Nat :=
  varintEncode ctx.strings.length ++ writeEntries ctx.strings

/-- Reads `k` table entries from the stream head. -/
def readEntries : Nat → List Nat → Except Error (List (List Nat) × List Nat)
  | 0, input => .ok ([], input)
  | k + 1, input =>
    match varintDecode input with
    | .error e => .error e
    | .ok (len, r1) =>
      if len ≤ r1.length then
        match readEntries k (r1.drop len) with
        | .ok (ss, r2) => .ok (r1.take len :: ss, r2)
        | .error e => .error e
      else .error .Io

/-- Modelled from the spec: `read_from` reads the count and then each
entry from the stream head, before any payload byte. -/
def DedupCtx.read_from (input : List Nat) : Except Error (DedupCtx × List Nat) :=
  match varintDecode input with
  | .error e => .error e
  | .ok (n, r1) =>
    match readEntries n r1 with
    | .ok (ss, r2) => .ok (⟨ss⟩, r2)
    | .error e => .error e

/-- One pool extends another by appending entries: indices already
assigned keep their meaning. -/
def ctxPrefixOf (a b : DedupCtx) : Prop := ∃ u, b.strings = a.strings ++ u

/- Modelled from the spec: the shape of a type implementing the
capability contract (section 3 "value tree" and section 4.4): primitive
scalars, strings, optionals, length-prefixed sequences, fixed-arity
structs whose fields carry the `skip` / `no_dedup` markers, and sum
types whose variants carry a payload type list. -/
mutual

inductive Ty where
  | tBool : Ty
  | tU64 : Ty
  | tI16 : Ty
  | tStr : Ty
  | tOpt : Ty → Ty
  | tList : Ty → Ty
  | tStruct : TyFields → Ty
  | tEnum : TyVariants → Ty

inductive TyFields where
  | nil : TyFields
  | cons : Bool → Bool → Ty → TyFields → TyFields

inductive TyVariants where
  | nil : TyVariants
  | cons : TyList → TyVariants → TyVariants

inductive TyList where
  | nil : TyList
  | cons : Ty → TyList → TyList

end

/- Modelled from the spec: a value of the capability contract.  A
struct value carries its fields' `skip` / `no_dedup` markers (in Rust
these are static per type; well-typedness forces them to agree with the
`Ty` side). -/
mutual

inductive Value where
  | vBool : Bool → Value
  | vU64 : Nat → Value
  | vI16 : Int → Value
  | vStr : List Nat → Value
  | vNone : Value
  | vSome : Value → Value
  | vList : ValueList → Value
  | vStruct : FieldList → Value
  | vEnum : Nat → ValueList → Value

inductive ValueList where
  | nil : ValueList
  | cons : Value → ValueList → ValueList

inductive FieldList where
  | nil : FieldList
  | cons : Bool → Bool → Value → FieldList → FieldList

end

/-- Number of elements of a sequence value. -/
def vlLength : ValueList → Nat
  | .nil => 0
  | .cons _ vs => vlLength vs + 1

mutual

/-- A value inhabits a contract type: shapes match, struct field
markers agree, an enum discriminant names a declared variant, and every
machine-width quantity fits its Rust width (`u64` and lengths below
`2 ^ 64`, `i16` in 16-bit range, stream bytes below 256). -/
def wt : Value → Ty → Bool
  | .vBool _, .tBool => true
  | .vU64 n, .tU64 => decide (n < 2 ^ 64)
  | .vI16 i, .tI16 => decide (-(2 ^ 15) ≤ i) && decide (i < 2 ^ 15)
  | .vStr s, .tStr => decide (s.length < 2 ^ 64) && s.all (fun b => decide (b < 256))
  | .vNone, .tOpt _ => true
  | .vSome v, .tOpt t => wt v t
  | .vList xs, .tList t => decide (vlLength xs < 2 ^ 64) && wtAll xs t
  | .vStruct fs, .tStruct tfs => wtFields fs tfs
  | .vEnum d pl, .tEnum vs => decide (d < 2 ^ 64) && wtVariant d pl vs
  | _, _ => false

def wtAll : ValueList → Ty → Bool
  | .nil, _ => true
  | .cons v vs, t => wt v t && wtAll vs t

def wtFields : FieldList → TyFields → Bool
  | .nil, .nil => true
  | .cons sk nd v fs, .cons sk2 nd2 t tfs =>
    sk == sk2 && nd == nd2 && wt v t && wtFields fs tfs
  | _, _ => false

def wtVariant : Nat → ValueList → TyVariants → Bool
  | _, _, .nil => false
  | 0, pl, .cons payload _ => wtPayload pl payload
  | n + 1, pl, .cons _ vs => wtVariant n pl vs

def wtPayload : ValueList → TyList → Bool
  | .nil, .nil => true
  | .cons v pl, .cons t ts => wt v t && wtPayload pl ts
  | _, _ => false

end

mutual

/-- The model's `Default::default()` of a contract type: zeroes, the
empty string, `None`, the empty sequence, fieldwise defaults, and for a
sum type the first declared variant with default payload. -/
def defaultValue : Ty → Value
  | .tBool => .vBool false
  | .tU64 => .vU64 0
  | .tI16 => .vI16 0
  | .tStr => .vStr []
  | .tOpt _ => .vNone
  | .tList _ => .vList .nil
  | .tStruct fs => .vStruct (defaultFields fs)
  | .tEnum vs => .vEnum 0 (defaultVariant vs)

def defaultFields : TyFields → FieldList
  | .nil => .nil
  | .cons sk nd t fs => .cons sk nd (defaultValue t) (defaultFields fs)

def defaultVariant : TyVariants → ValueList
  | .nil => .nil
  | .cons p _ => defaultPayload p

def defaultPayload : TyList → ValueList
  | .nil => .nil
  | .cons t ts => .cons (defaultValue t) (defaultPayload ts)

end

mutual

/-- Replaces the content of every `skip`-marked field by its type's
default, recursively: exactly the information loss of an
encode/decode round trip. -/
def scrub : Ty → Value → Value
  | .tOpt t, .vSome v => .vSome (scrub t v)
  | .tList t, .vList xs => .vList (scrubAll t xs)
  | .tStruct tfs, .vStruct fs => .vStruct (scrubFields tfs fs)
  | .tEnum vs, .vEnum d pl => .vEnum d (scrubVariant d vs pl)
  | _, v => v

def scrubAll : Ty → ValueList → ValueList
  | _, .nil => .nil
  | t, .cons v vs => .cons (scrub t v) (scrubAll t vs)

def scrubFields : TyFields → FieldList → FieldList
  | .cons sk nd t tfs, .cons _ _ v fs =>
    .cons sk nd (if sk then defaultValue t else scrub t v) (scrubFields tfs fs)
  | _, fs => fs

def scrubVariant : Nat → TyVariants → ValueList → ValueList
  | _, .nil, pl => pl
  | 0, .cons p _, pl => scrubPayload p pl
  | n + 1, .cons _ vs, pl => scrubVariant n vs pl

def scrubPayload : TyList → ValueList → ValueList
  | .cons t ts, .cons v pl => .cons (scrub t v) (scrubPayload ts pl)
  | _, pl => pl

end

mutual

/-- The dedup-eligible string occurrences of a value in traversal
order: strings reached with the dedup-permission flag still on,
`skip`-marked fields excluded, `no_dedup`-marked fields visited with
the flag off. -/
def dedupOccs : Bool → Value → List (List Nat)
  | d, .vStr s => if d then [s] else []
  | d, .vSome v => dedupOccs d v
  | d, .vList xs => dedupOccsAll d xs
  | d, .vStruct fs => dedupOccsFields d fs
  | d, .vEnum _ pl => dedupOccsAll d pl
  | _, _ => []

def dedupOccsAll : Bool → ValueList → List (List Nat)
  | _, .nil => []
  | d, .cons v vs => dedupOccs d v ++ dedupOccsAll d vs

def dedupOccsFields : Bool → FieldList → List (List Nat)
  | _, .nil => []
  | d, .cons sk nd v fs =>
    (if sk then [] else dedupOccs (d && !nd) v) ++ dedupOccsFields d fs

end

/- Modelled from the spec: the Prescan pass (module `ser` is absent
from `src/`).  It replays the exact traversal of the Base codec,
writes nothing, and feeds every dedup-eligible string to its owned
build-side context via `intern` (section 4.5).  The Boolean argument is
the dedup-permission flag, cleared below a `no_dedup`-marked field;
`skip`-marked fields are never visited. -/
mutual

def prescanValue (m : Mode) : Bool → DedupCtx → Value → DedupCtx
  | _, ctx, .vBool _ => ctx
  | _, ctx, .vU64 _ => ctx
  | _, ctx, .vI16 _ => ctx
  | d, ctx, .vStr s => if m.use_dedup && d then (DedupCtx.intern s ctx).2 else ctx
  | _, ctx, .vNone => ctx
  | d, ctx, .vSome v => prescanValue m d ctx v
  | d, ctx, .vList xs => prescanList m d ctx xs
  | d, ctx, .vStruct fs => prescanFields m d ctx fs
  | d, ctx, .vEnum _ pl => prescanList m d ctx pl

def prescanList (m : Mode) : Bool → DedupCtx → ValueList → DedupCtx
  | _, ctx, .nil => ctx
  | d, ctx, .cons v vs => prescanList m d (prescanValue m d ctx v) vs

def prescanFields (m : Mode) : Bool → DedupCtx → FieldList → DedupCtx
  | _, ctx, .nil => ctx
  | d, ctx, .cons sk nd v fs =>
    prescanFields m d (if sk then ctx else prescanValue m (d && !nd) ctx v) fs

end

/- Modelled from the spec: the Base codec write side (section 4.6).  It
wraps the sink and the active `Mode`, and for dedup mode independently
re-derives the string-to-index assignment with its own context: a
dedup-eligible string is emitted as `varint(index)` from `intern`, any
other string inline as `varint(length) ++ bytes`.  Booleans are one
byte `0xFF` / `0x00`, an optional is a presence tag plus conditional
inner call, sequences and enum discriminants are varint prefixed,
struct fields are emitted in order with `skip`-marked fields
contributing zero bytes, and fixed-width integers are raw little-endian
unless `fixed_size_use_varint` is on (signed ones via zig-zag). -/
mutual

def serValue (m : Mode) : Bool → DedupCtx → Value → DedupCtx × List Nat
  | _, ctx, .vBool b => (ctx, [if b then 255 else 0])
  | _, ctx, .vU64 n =>
    (ctx, if m.fixed_size_use_varint then varintEncode n else natToLE 8 n)
  | _, ctx, .vI16 i =>
    (ctx, if m.fixed_size_use_varint then varintEncode (zigzag i) else natToLE 2 (i16ToU16 i))
  | d, ctx, .vStr s =>
    if m.use_dedup && d then
      ((DedupCtx.intern s ctx).2, varintEncode (DedupCtx.intern s ctx).1)
    else (ctx, varintEncode s.length ++ s)
  | _, ctx, .vNone => (ctx, [0])
  | d, ctx, .vSome v =>
    ((serValue m d ctx v).1, 255 :: (serValue m d ctx v).2)
  | d, ctx, .vList xs =>
    ((serList m d ctx xs).1, varintEncode (vlLength xs) ++ (serList m d ctx xs).2)
  | d, ctx, .vStruct fs => serFields m d ctx fs
  | d, ctx, .vEnum dis pl =>
    ((serList m d ctx pl).1, varintEncode dis ++ (serList m d ctx pl).2)

def serList (m : Mode) : Bool → DedupCtx → ValueList → DedupCtx × List Nat
  | _, ctx, .nil => (ctx, [])
  | d, ctx, .cons v vs =>
    ((serList m d (serValue m d ctx v).1 vs).1,
      (serValue m d ctx v).2 ++ (serList m d (serValue m d ctx v).1 vs).2)

def serFields (m : Mode) : Bool → DedupCtx → FieldList → DedupCtx × List Nat
  | _, ctx, .nil => (ctx, [])
  | d, ctx, .cons sk nd v fs =>
    if sk then serFields m d ctx fs
    else
      ((serFields m d (serValue m (d && !nd) ctx v).1 fs).1,
        (serValue m (d && !nd) ctx v).2 ++ (serFields m d (serValue m (d && !nd) ctx v).1 fs).2)

end

/- Modelled from the spec: the Base codec read side (section 4.6 and
the read half of section 4.4).  It wraps the input, the active `Mode`
and the already-fully-populated read-side context; a dedup-eligible
string is decoded as `varint(index)` resolved through `lookup`, a
`skip`-marked struct field reads nothing and is filled with the
type's default. -/
mutual

def deserValue (m : Mode) (d : Bool) (ctx : DedupCtx) : Ty → List Nat → Except Error (Value × List Nat)
  | .tBool, [] => .error .Io
  | .tBool, b :: rest => .ok (.vBool (decide (b ≠ 0)), rest)
  | .tU64, input =>
    if m.fixed_size_use_varint then
      match varintDecode input with
      | .ok (n, rest) => .ok (.vU64 n, rest)
      | .error e => .error e
    else
      match readLE 8 input with
      | .ok (n, rest) => .ok (.vU64 n, rest)
      | .error e => .error e
  | .tI16, input =>
    if m.fixed_size_use_varint then
      match varintDecode input with
      | .ok (n, rest) => .ok (.vI16 (unzigzag n), rest)
      | .error e => .error e
    else
      match readLE 2 input with
      | .ok (n, rest) => .ok (.vI16 (u16ToI16 n), rest)
      | .error e => .error e
  | .tStr, input =>
    if m.use_dedup && d then
      match varintDecode input with
      | .ok (i, rest) =>
        match DedupCtx.lookup ctx i with
        | .ok s => .ok (.vStr s, rest)
        | .error e => .error e
      | .error e => .error e
    else
      match varintDecode input with
      | .ok (len, rest) =>
        if len ≤ rest.length then .ok (.vStr (rest.take len), rest.drop len)
        else .error .Io
      | .error e => .error e
  | .tOpt _, [] => .error .Io
  | .tOpt t, b :: rest =>
    if b = 0 then .ok (.vNone, rest)
    else
      match deserValue m d ctx t rest with
      | .ok (v, rest1) => .ok (.vSome v, rest1)
      | .error e => .error e
  | .tList t, input =>
    match varintDecode input with
    | .ok (n, rest) =>
      match deserN m d ctx t n rest with
      | .ok (xs, rest1) => .ok (.vList xs, rest1)
      | .error e => .error e
    | .error e => .error e
  | .tStruct tfs, input =>
    match deserFields m d ctx tfs input with
    | .ok (fs, rest) => .ok (.vStruct fs, rest)
    | .error e => .error e
  | .tEnum vs, input =>
    match varintDecode input with
    | .ok (dis, rest) =>
      match deserVariants m d ctx vs dis rest with
      | .ok (pl, rest1) => .ok (.vEnum dis pl, rest1)
      | .error e => .error e
    | .error e => .error e
termination_by t _ => (sizeOf t, 0)

def deserN (m : Mode) (d : Bool) (ctx : DedupCtx) (t : Ty) : Nat → List Nat → Except Error (ValueList × List Nat)
  | 0, input => .ok (.nil, input)
  | n + 1, input =>
    match deserValue m d ctx t input with
    | .ok (v, rest) =>
      match deserN m d ctx t n rest with
      | .ok (vs, rest1) => .ok (.cons v vs, rest1)
      | .error e => .error e
    | .error e => .error e
termination_by n _ => (sizeOf t, n + 1)

def deserFields (m : Mode) (d : Bool) (ctx : DedupCtx) : TyFields → List Nat → Except Error (FieldList × List Nat)
  | .nil, input => .ok (.nil, input)
  | .cons sk nd t tfs, input =>
    if sk then
      match deserFields m d ctx tfs input with
      | .ok (fs, rest) => .ok (.cons sk nd (defaultValue t) fs, rest)
      | .error e => .error e
    else
      match deserValue m (d && !nd) ctx t input with
      | .ok (v, rest) =>
        match deserFields m d ctx tfs rest with
        | .ok (fs, rest1) => .ok (.cons sk nd v fs, rest1)
        | .error e => .error e
      | .error e => .error e
termination_by tfs _ => (sizeOf tfs, 0)

def deserVariants (m : Mode) (d : Bool) (ctx : DedupCtx) : TyVariants → Nat → List Nat → Except Error (ValueList × List Nat)
  | .nil, _, _ => .error (.Custom badDiscriminantMsg)
  | .cons p _, 0, input => deserPayload m d ctx p input
  | .cons _ vs, n + 1, input => deserVariants m d ctx vs n input
termination_by vs _ _ => (sizeOf vs, 0)

def deserPayload (m : Mode) (d : Bool) (ctx : DedupCtx) : TyList → List Nat → Except Error (ValueList × List Nat)
  | .nil, input => .ok (.nil, input)
  | .cons t ts, input =>
    match deserValue m d ctx t input with
    | .ok (v, rest) =>
      match deserPayload m d ctx ts rest with
      | .ok (vs, rest1) => .ok (.cons v vs, rest1)
      | .error e => .error e
    | .error e => .error e
termination_by ts _ => (sizeOf ts, 0)

end

/-- Translated from `src/lib.rs` (`serialize_with_into`): when
`mode.use_dedup` is set, a fresh `PrescanSerializer` first replays the
value's traversal to populate its context, whose table is then written
to the pipe; afterwards a fresh `BinSerializerBase` writes the payload.
The pipe is a pure byte list, so the Rust `io::Result` error paths
cannot fire and the function is total. -/
def serialize_with_into (pipe : List Nat) (v : Value) (m : Mode) : List Nat :=
  (if m.use_dedup then
    pipe ++ DedupCtx.write_to (prescanValue m true DedupCtx.new v)
  else pipe) ++ (serValue m true DedupCtx.new v).2

/-- Translated from `src/lib.rs` (`serialize_with`): serialize into a
fresh buffer. -/
def serialize_with (v : Value) (m : Mode) : List Nat := serialize_with_into [] v m

/-- Translated from `src/lib.rs` (`serialize`): default-mode
buffer-returning entry point. -/
def serialize (v : Value) : List Nat := serialize_with v Mode.default

/-- Translated from `src/lib.rs` (`serialize_into`): default-mode
stream entry point. -/
def serialize_into (pipe : List Nat) (v : Value) : List Nat :=
  serialize_with_into pipe v Mode.default

/-- Translated from `src/lib.rs` (`deserialize_with_from`): when
`mode.use_dedup` is set the read-side context is fully read from the
stream head, else the empty context is used with no byte consumed; the
payload is then decoded from the remaining stream.  Returns the decoded
value together with the unconsumed tail (the stream position). -/
def deserialize_with_from (t : Ty) (pipe : List Nat) (m : Mode) : Except Error (Value × List Nat) :=
  match (if m.use_dedup then DedupCtx.read_from pipe else .ok (DedupCtx.new, pipe)) with
  | .ok (ctx, rest) => deserValue m true ctx t rest
  | .error e => .error e

/-- Translated from `src/lib.rs` (`deserialize_with`): decode from a
buffer, discarding the final stream position. -/
def deserialize_with (t : Ty) (buf : List Nat) (m : Mode) : Except Error Value :=
  match deserialize_with_from t buf m with
  | .ok (v, _) => .ok v
  | .error e => .error e

/-- Translated from `src/lib.rs` (`deserialize`): default-mode buffer
entry point. -/
def deserialize (t : Ty) (buf : List Nat) : Except Error Value :=
  deserialize_with t buf Mode.default

/-- Translated from `src/lib.rs` (`deserialize_from`): default-mode
stream entry point. -/
def deserialize_from (t : Ty) (pipe : List Nat) : Except Error (Value × List Nat) :=
  deserialize_with_from t pipe Mode.default

theorem varint_rt_aux (f : Nat) : ∀ g n rest, n < 2 ^ (7 * (f + 1)) → f + 1 ≤ g →
    varintDecodeF g (varintEncodeF (f + 1) n ++ rest) = .ok (n, rest) := by
  induction f with
  | zero =>
    intro g n rest hn hg
    obtain ⟨g1, rfl⟩ : ∃ g1, g = g1 + 1 := ⟨g - 1, by omega⟩
    have hn128 : n < 128 := by omega
    simp [varintEncodeF, varintDecodeF, hn128]
  | succ f ih =>
    intro g n rest hn hg
    obtain ⟨g1, rfl⟩ : ∃ g1, g = g1 + 1 := ⟨g - 1, by omega⟩
    by_cases hn128 : n < 128
    · simp [varintEncodeF, varintDecodeF, hn128]
    · have hdiv : n / 128 < 2 ^ (7 * (f + 1)) := by
        rw [Nat.div_lt_iff_lt_mul (by norm_num)]
        calc n < 2 ^ (7 * (f + 2)) := hn
        _ = 2 ^ (7 * (f + 1)) * 128 := by ring
      have hrec := ih g1 (n / 128) rest hdiv (by omega)
      have hb : ¬ (n % 128 + 128 < 128) := by omega
      have henc : varintEncodeF (f + 1 + 1) n = (n % 128 + 128) :: varintEncodeF (f + 1) (n / 128) := by
        rw [varintEncodeF]
        simp [hn128]
      rw [henc, List.cons_append]
      simp only [varintDecodeF, if_neg hb, hrec]
      simp only [Except.ok.injEq, Prod.mk.injEq, and_true]
      omega

theorem varint_roundtrip (n : Nat) (rest : List Nat) (hn : n < 2 ^ 70) :
    varintDecode (varintEncode n ++ rest) = .ok (n, rest) := by
  exact varint_rt_aux 9 10 n rest (by norm_num at hn ⊢; omega) (by norm_num)

theorem log2_div_128 (n : Nat) : Nat.log2 (n / 128) = Nat.log2 n - 7 := by
  have h : n / 128 = n / 2 / 2 / 2 / 2 / 2 / 2 / 2 := by omega
  simp only [Nat.log2_eq_log_two] at *
  rw [h, Nat.log_div_base, Nat.log_div_base, Nat.log_div_base, Nat.log_div_base,
    Nat.log_div_base, Nat.log_div_base, Nat.log_div_base]
  omega

theorem varint_len_aux (f : Nat) : ∀ n, n < 2 ^ (7 * (f + 1)) →
    (varintEncodeF (f + 1) n).length = if n = 0 then 1 else Nat.log2 n / 7 + 1 := by
  induction f with
  | zero =>
    intro n hn
    have hn128 : n < 128 := by omega
    simp only [varintEncodeF, if_pos hn128, List.length_singleton]
    by_cases h0 : n = 0
    · simp [h0]
    · have : Nat.log2 n < 7 := (Nat.log2_lt h0).mpr (by omega)
      rw [if_neg h0]
      omega
  | succ f ih =>
    intro n hn
    by_cases hn128 : n < 128
    · simp only [varintEncodeF, if_pos hn128, List.length_singleton]
      by_cases h0 : n = 0
      · simp [h0]
      · have : Nat.log2 n < 7 := (Nat.log2_lt h0).mpr (by omega)
        rw [if_neg h0]
        omega
    · have hdiv : n / 128 < 2 ^ (7 * (f + 1)) := by
        rw [Nat.div_lt_iff_lt_mul (by norm_num)]
        calc n < 2 ^ (7 * (f + 2)) := hn
        _ = 2 ^ (7 * (f + 1)) * 128 := by ring
      have hlog : 7 ≤ Nat.log2 n := (Nat.le_log2 (by omega)).mpr (by omega)
      have hd0 : ¬ (n / 128 = 0) := by omega
      have henc : varintEncodeF (f + 1 + 1) n = (n % 128 + 128) :: varintEncodeF (f + 1) (n / 128) := by
        rw [varintEncodeF]
        simp [hn128]
      rw [henc, List.length_cons, ih (n / 128) hdiv, if_neg hd0, log2_div_128]
      have h0 : ¬ (n = 0) := by omega
      rw [if_neg h0]
      omega

theorem varint_length (n : Nat) (hn : n < 2 ^ 70) :
    (varintEncode n).length = if n = 0 then 1 else Nat.log2 n / 7 + 1 :=
  varint_len_aux 9 n (by norm_num at hn ⊢; omega)

theorem varint_bytes_aux (f : Nat) : ∀ n, n < 2 ^ (7 * (f + 1)) →
    varintValue (varintEncodeF (f + 1) n) = n ∧
    (∀ b ∈ (varintEncodeF (f + 1) n).dropLast, 128 ≤ b ∧ b < 256) ∧
    (∀ b, (varintEncodeF (f + 1) n).getLast? = some b → b < 128) := by
  induction f with
  | zero =>
    intro n hn
    have hn128 : n < 128 := by omega
    simp [varintEncodeF, hn128, varintValue]
  | succ f ih =>
    intro n hn
    by_cases hn128 : n < 128
    · simp [varintEncodeF, hn128, varintValue]
    · have hdiv : n / 128 < 2 ^ (7 * (f + 1)) := by
        rw [Nat.div_lt_iff_lt_mul (by norm_num)]
        calc n < 2 ^ (7 * (f + 2)) := hn
        _ = 2 ^ (7 * (f + 1)) * 128 := by ring
      obtain ⟨ihv, ihd, ihl⟩ := ih (n / 128) hdiv
      have hne : varintEncodeF (f + 1) (n / 128) ≠ [] := by
        rw [varintEncodeF]
        split <;> simp
      have henc : varintEncodeF (f + 1 + 1) n = (n % 128 + 128) :: varintEncodeF (f + 1) (n / 128) := by
        rw [varintEncodeF]
        simp [hn128]
      obtain ⟨x, xs, hx⟩ := List.exists_cons_of_ne_nil hne
      rw [henc, hx]
      rw [hx] at ihv ihd ihl
      refine ⟨?_, ?_, ?_⟩
      · simp only [varintValue, List.foldr_cons] at ihv ⊢
        rw [show x % 128 + 128 * List.foldr (fun b acc => b % 128 + 128 * acc) 0 xs = n / 128 from ihv]
        omega
      · intro b hb
        rw [List.dropLast_cons_of_ne_nil (by simp)] at hb
        rcases List.mem_cons.mp hb with h | h
        · omega
        · exact ihd b h
      · intro b hb
        rw [List.getLast?_cons_cons] at hb
        exact ihl b hb

theorem varint_structure (n : Nat) (hn : n < 2 ^ 70) :
    varintValue (varintEncode n) = n ∧
    (∀ b ∈ (varintEncode n).dropLast, 128 ≤ b ∧ b < 256) ∧
    (∀ b, (varintEncode n).getLast? = some b → b < 128) :=
  varint_bytes_aux 9 n (by norm_num at hn ⊢; omega)

theorem unzigzag_zigzag (i : Int) : unzigzag (zigzag i) = i := by
  unfold zigzag unzigzag
  by_cases h : 0 ≤ i
  · simp only [if_pos h]
    have h2 : (2 * i.toNat) % 2 = 0 := by omega
    simp only [if_pos h2]
    omega
  · simp only [if_neg h]
    have hpos : 1 ≤ (-i).toNat := by omega
    have h2 : ¬ ((2 * (-i).toNat - 1) % 2 = 0) := by omega
    simp only [if_neg h2]
    omega

theorem zigzag_lt (i : Int) (h1 : -(2 ^ 15) ≤ i) (h2 : i < 2 ^ 15) :
    zigzag i < 2 ^ 16 := by
  unfold zigzag
  split <;> (norm_num at h1 h2 ⊢; omega)

theorem readLE_natToLE (k : Nat) : ∀ n rest, n < 256 ^ k →
    readLE k (natToLE k n ++ rest) = .ok (n, rest) := by
  induction k with
  | zero => intro n rest hn; interval_cases n; simp [natToLE, readLE]
  | succ k ih =>
    intro n rest hn
    have hdiv : n / 256 < 256 ^ k := by
      rw [Nat.div_lt_iff_lt_mul (by norm_num)]
      calc n < 256 ^ (k + 1) := hn
      _ = 256 ^ k * 256 := by ring
    have henc : natToLE (k + 1) n = n % 256 :: natToLE k (n / 256) := by rw [natToLE]
    rw [henc, List.cons_append]
    simp only [readLE, ih (n / 256) rest hdiv]
    simp only [Except.ok.injEq, Prod.mk.injEq, and_true]
    omega

theorem i16ToU16_lt (i : Int) : i16ToU16 i < 65536 := by
  unfold i16ToU16
  omega

theorem u16ToI16_i16ToU16 (i : Int) (h1 : -(2 ^ 15) ≤ i) (h2 : i < 2 ^ 15) :
    u16ToI16 (i16ToU16 i) = i := by
  unfold i16ToU16 u16ToI16
  norm_num at h1 h2
  split <;> omega

theorem ctxPrefixOf_refl (a : DedupCtx) : ctxPrefixOf a a := ⟨[], by simp⟩

theorem ctxPrefixOf_trans {a b c : DedupCtx} (h1 : ctxPrefixOf a b) (h2 : ctxPrefixOf b c) :
    ctxPrefixOf a c := by
  obtain ⟨u, hu⟩ := h1
  obtain ⟨w, hw⟩ := h2
  exact ⟨u ++ w, by simp [hw, hu]⟩

theorem ctxPrefixOf_len {a b : DedupCtx} (h : ctxPrefixOf a b) :
    a.strings.length ≤ b.strings.length := by
  obtain ⟨u, hu⟩ := h
  simp [hu]

theorem ctxPrefixOf_get {a b : DedupCtx} {i : Nat} {s : List Nat} (h : ctxPrefixOf a b)
    (hg : a.strings[i]? = some s) : b.strings[i]? = some s := by
  obtain ⟨u, hu⟩ := h
  have hi : i < a.strings.length := by
    by_contra hc
    rw [List.getElem?_eq_none (by omega)] at hg
    exact Option.noConfusion hg
  rw [hu, List.getElem?_append_left hi]
  exact hg

theorem listIndexOf_lt {s : List Nat} {l : List (List Nat)} (h : s ∈ l) :
    listIndexOf s l < l.length := by
  induction l with
  | nil => simp at h
  | cons t ts ih =>
    by_cases ht : t = s
    · simp [listIndexOf, ht]
    · rcases List.mem_cons.mp h with h1 | h1
      · exact absurd h1.symm ht
      · simp only [listIndexOf, if_neg ht, List.length_cons]
        exact Nat.succ_lt_succ (ih h1)

theorem listIndexOf_getElem {s : List Nat} {l : List (List Nat)} (h : s ∈ l) :
    l[listIndexOf s l]? = some s := by
  induction l with
  | nil => simp at h
  | cons t ts ih =>
    by_cases ht : t = s
    · simp [listIndexOf, ht]
    · rcases List.mem_cons.mp h with h1 | h1
      · exact absurd h1.symm ht
      · simp only [listIndexOf, if_neg ht, List.getElem?_cons_succ]
        exact ih h1

theorem intern_lt (s : List Nat) (ctx : DedupCtx) :
    (DedupCtx.intern s ctx).1 < (DedupCtx.intern s ctx).2.strings.length := by
  unfold DedupCtx.intern
  split
  · next h => exact listIndexOf_lt h
  · simp

theorem intern_get (s : List Nat) (ctx : DedupCtx) :
    (DedupCtx.intern s ctx).2.strings[(DedupCtx.intern s ctx).1]? = some s := by
  unfold DedupCtx.intern
  split
  · next h => exact listIndexOf_getElem h
  · simp

theorem intern_extends (s : List Nat) (ctx : DedupCtx) :
    ctxPrefixOf ctx (DedupCtx.intern s ctx).2 := by
  unfold DedupCtx.intern
  split
  · exact ctxPrefixOf_refl ctx
  · exact ⟨[s], rfl⟩

theorem intern_mem (s : List Nat) (ctx : DedupCtx) :
    ∀ x ∈ (DedupCtx.intern s ctx).2.strings, x ∈ ctx.strings ∨ x = s := by
  unfold DedupCtx.intern
  split
  · intro x hx; exact Or.inl hx
  · intro x hx
    simp only [List.mem_append, List.mem_singleton] at hx
    exact hx

theorem readEntries_writeEntries (l : List (List Nat)) (rest : List Nat)
    (hwf : ∀ s ∈ l, s.length < 2 ^ 64) :
    readEntries l.length (writeEntries l ++ rest) = .ok (l, rest) := by
  induction l with
  | nil => simp [writeEntries, readEntries]
  | cons s ss ih =>
    have hs : s.length < 2 ^ 64 := hwf s (List.mem_cons_self s ss)
    have hlt : s.length < 2 ^ 70 := by norm_num at hs ⊢; omega
    have hrt := varint_roundtrip s.length (s ++ (writeEntries ss ++ rest)) hlt
    have hle : s.length ≤ (s ++ (writeEntries ss ++ rest)).length := by simp
    have htake : (s ++ (writeEntries ss ++ rest)).take s.length = s := List.take_left s _
    have hdrop : (s ++ (writeEntries ss ++ rest)).drop s.length = writeEntries ss ++ rest :=
      List.drop_left s _
    have hss : readEntries ss.length (writeEntries ss ++ rest) = .ok (ss, rest) :=
      ih (fun x hx => hwf x (List.mem_cons_of_mem s hx))
    show readEntries (ss.length + 1) (writeEntries (s :: ss) ++ rest) = .ok (s :: ss, rest)
    rw [show writeEntries (s :: ss) ++ rest = varintEncode s.length ++ (s ++ (writeEntries ss ++ rest))
      from by simp [writeEntries]]
    simp only [readEntries, hrt, if_pos hle, htake, hdrop, hss]

theorem read_from_write_to (ctx : DedupCtx) (rest : List Nat)
    (hcount : ctx.strings.length < 2 ^ 64)
    (hwf : ∀ s ∈ ctx.strings, s.length < 2 ^ 64) :
    DedupCtx.read_from (DedupCtx.write_to ctx ++ rest) = .ok (ctx, rest) := by
  have hlt : ctx.strings.length < 2 ^ 70 := by norm_num at hcount ⊢; omega
  have hrt := varint_roundtrip ctx.strings.length (writeEntries ctx.strings ++ rest) hlt
  unfold DedupCtx.read_from DedupCtx.write_to
  rw [List.append_assoc, hrt]
  simp only [readEntries_writeEntries ctx.strings rest hwf]

mutual

theorem prescan_extends (m : Mode) (d : Bool) (ctx : DedupCtx) (v : Value) :
    ctxPrefixOf ctx (prescanValue m d ctx v) := by
  cases v with
  | vBool b => exact ctxPrefixOf_refl _
  | vU64 n => exact ctxPrefixOf_refl _
  | vI16 i => exact ctxPrefixOf_refl _
  | vStr s =>
    show ctxPrefixOf ctx (if m.use_dedup && d then (DedupCtx.intern s ctx).2 else ctx)
    split
    · exact intern_extends s ctx
    · exact ctxPrefixOf_refl _
  | vNone => exact ctxPrefixOf_refl _
  | vSome v => exact prescan_extends m d ctx v
  | vList xs => exact prescan_extends_list m d ctx xs
  | vStruct fs => exact prescan_extends_fields m d ctx fs
  | vEnum dis pl => exact prescan_extends_list m d ctx pl

theorem prescan_extends_list (m : Mode) (d : Bool) (ctx : DedupCtx) (xs : ValueList) :
    ctxPrefixOf ctx (prescanList m d ctx xs) := by
  cases xs with
  | nil => exact ctxPrefixOf_refl _
  | cons v vs =>
    exact ctxPrefixOf_trans (prescan_extends m d ctx v)
      (prescan_extends_list m d (prescanValue m d ctx v) vs)

theorem prescan_extends_fields (m : Mode) (d : Bool) (ctx : DedupCtx) (fs : FieldList) :
    ctxPrefixOf ctx (prescanFields m d ctx fs) := by
  cases fs with
  | nil => exact ctxPrefixOf_refl _
  | cons sk nd v fs =>
    cases sk with
    | true => exact prescan_extends_fields m d ctx fs
    | false =>
      exact ctxPrefixOf_trans (prescan_extends m (d && !nd) ctx v)
        (prescan_extends_fields m d (prescanValue m (d && !nd) ctx v) fs)

end

mutual

theorem ser_fst (m : Mode) (d : Bool) (ctx : DedupCtx) (v : Value) :
    (serValue m d ctx v).1 = prescanValue m d ctx v := by
  cases v with
  | vBool b => rfl
  | vU64 n => rfl
  | vI16 i => rfl
  | vStr s =>
    show (if m.use_dedup && d then _ else _ : DedupCtx × List Nat).1 = _
    by_cases h : m.use_dedup && d <;> simp [serValue, prescanValue, h]
  | vNone => rfl
  | vSome v => exact ser_fst m d ctx v
  | vList xs => exact ser_fst_list m d ctx xs
  | vStruct fs => exact ser_fst_fields m d ctx fs
  | vEnum dis pl => exact ser_fst_list m d ctx pl

theorem ser_fst_list (m : Mode) (d : Bool) (ctx : DedupCtx) (xs : ValueList) :
    (serList m d ctx xs).1 = prescanList m d ctx xs := by
  cases xs with
  | nil => rfl
  | cons v vs =>
    show (serList m d (serValue m d ctx v).1 vs).1 = _
    rw [ser_fst m d ctx v]
    exact ser_fst_list m d (prescanValue m d ctx v) vs

theorem ser_fst_fields (m : Mode) (d : Bool) (ctx : DedupCtx) (fs : FieldList) :
    (serFields m d ctx fs).1 = prescanFields m d ctx fs := by
  cases fs with
  | nil => rfl
  | cons sk nd v fs =>
    cases sk with
    | true => exact ser_fst_fields m d ctx fs
    | false =>
      show (serFields m d (serValue m (d && !nd) ctx v).1 fs).1 = _
      rw [ser_fst m (d && !nd) ctx v]
      exact ser_fst_fields m d (prescanValue m (d && !nd) ctx v) fs

end

mutual

theorem prescan_no_dedup (m : Mode) (d : Bool) (ctx : DedupCtx) (v : Value)
    (h : m.use_dedup = false) : prescanValue m d ctx v = ctx := by
  cases v with
  | vBool b => rfl
  | vU64 n => rfl
  | vI16 i => rfl
  | vStr s => simp [prescanValue, h]
  | vNone => rfl
  | vSome v => exact prescan_no_dedup m d ctx v h
  | vList xs => exact prescan_no_dedup_list m d ctx xs h
  | vStruct fs => exact prescan_no_dedup_fields m d ctx fs h
  | vEnum dis pl => exact prescan_no_dedup_list m d ctx pl h

theorem prescan_no_dedup_list (m : Mode) (d : Bool) (ctx : DedupCtx) (xs : ValueList)
    (h : m.use_dedup = false) : prescanList m d ctx xs = ctx := by
  cases xs with
  | nil => rfl
  | cons v vs =>
    show prescanList m d (prescanValue m d ctx v) vs = ctx
    rw [prescan_no_dedup m d ctx v h]
    exact prescan_no_dedup_list m d ctx vs h

theorem prescan_no_dedup_fields (m : Mode) (d : Bool) (ctx : DedupCtx) (fs : FieldList)
    (h : m.use_dedup = false) : prescanFields m d ctx fs = ctx := by
  cases fs with
  | nil => rfl
  | cons sk nd v fs =>
    cases sk with
    | true => exact prescan_no_dedup_fields m d ctx fs h
    | false =>
      show prescanFields m d (prescanValue m (d && !nd) ctx v) fs = ctx
      rw [prescan_no_dedup m (d && !nd) ctx v h]
      exact prescan_no_dedup_fields m d ctx fs h

end

mutual

theorem wt_occs (d : Bool) (v : Value) : ∀ t, wt v t = true →
    ∀ x ∈ dedupOccs d v, x.length < 2 ^ 64 := by
  intro t hwt x hx
  cases v with
  | vBool b => simp [dedupOccs] at hx
  | vU64 n => simp [dedupOccs] at hx
  | vI16 i => simp [dedupOccs] at hx
  | vStr s =>
    cases t <;> simp [wt] at hwt
    simp only [dedupOccs] at hx
    split at hx
    · simp only [List.mem_singleton] at hx
      subst hx
      exact hwt.1
    · simp at hx
  | vNone => simp [dedupOccs] at hx
  | vSome v =>
    cases t <;> simp [wt] at hwt
    exact wt_occs d v _ hwt x hx
  | vList xs =>
    cases t <;> simp [wt] at hwt
    exact wt_occs_all d xs _ hwt.2 x hx
  | vStruct fs =>
    cases t <;> simp [wt] at hwt
    exact wt_occs_fields d fs _ hwt x hx
  | vEnum dis pl =>
    cases t <;> simp [wt] at hwt
    exact wt_occs_variant d pl dis _ hwt.2 x hx

theorem wt_occs_all (d : Bool) (xs : ValueList) : ∀ t, wtAll xs t = true →
    ∀ x ∈ dedupOccsAll d xs, x.length < 2 ^ 64 := by
  intro t hwt x hx
  cases xs with
  | nil => simp [dedupOccsAll] at hx
  | cons v vs =>
    simp only [wtAll, Bool.and_eq_true] at hwt
    simp only [dedupOccsAll, List.mem_append] at hx
    rcases hx with h | h
    · exact wt_occs d v t hwt.1 x h
    · exact wt_occs_all d vs t hwt.2 x h

theorem wt_occs_fields (d : Bool) (fs : FieldList) : ∀ tfs, wtFields fs tfs = true →
    ∀ x ∈ dedupOccsFields d fs, x.length < 2 ^ 64 := by
  intro tfs hwt x hx
  cases fs with
  | nil => simp [dedupOccsFields] at hx
  | cons sk nd v fs =>
    cases tfs with
    | nil => simp [wtFields] at hwt
    | cons sk2 nd2 t tfs =>
      simp only [wtFields, Bool.and_eq_true] at hwt
      simp only [dedupOccsFields, List.mem_append] at hx
      rcases hx with h | h
      · cases sk with
        | true => simp at h
        | false => exact wt_occs (d && !nd) v t hwt.1.2 x h
      · exact wt_occs_fields d fs tfs hwt.2 x h

theorem wt_occs_variant (d : Bool) (pl : ValueList) : ∀ n vs, wtVariant n pl vs = true →
    ∀ x ∈ dedupOccsAll d pl, x.length < 2 ^ 64 := by
  intro n vs hwt x hx
  cases vs with
  | nil => simp [wtVariant] at hwt
  | cons p vs =>
    cases n with
    | zero =>
      rw [show wtVariant 0 pl (TyVariants.cons p vs) = wtPayload pl p from by
        simp [wtVariant]] at hwt
      exact wt_occs_payload d pl p hwt x hx
    | succ n =>
      rw [show wtVariant (n + 1) pl (TyVariants.cons p vs) = wtVariant n pl vs from by
        simp [wtVariant]] at hwt
      exact wt_occs_variant d pl n vs hwt x hx

theorem wt_occs_payload (d : Bool) (pl : ValueList) : ∀ ts, wtPayload pl ts = true →
    ∀ x ∈ dedupOccsAll d pl, x.length < 2 ^ 64 := by
  intro ts hwt x hx
  cases pl with
  | nil => simp [dedupOccsAll] at hx
  | cons v vs =>
    cases ts with
    | nil => simp [wtPayload] at hwt
    | cons t ts =>
      simp only [wtPayload, Bool.and_eq_true] at hwt
      simp only [dedupOccsAll, List.mem_append] at hx
      rcases hx with h | h
      · exact wt_occs d v t hwt.1 x h
      · exact wt_occs_payload d vs ts hwt.2 x h

end

mutual

theorem prescan_sub (m : Mode) (d : Bool) (ctx : DedupCtx) (v : Value) :
    ∀ x ∈ (prescanValue m d ctx v).strings, x ∈ ctx.strings ∨ x ∈ dedupOccs d v := by
  intro x hx
  cases v with
  | vBool b => exact Or.inl hx
  | vU64 n => exact Or.inl hx
  | vI16 i => exact Or.inl hx
  | vStr s =>
    show x ∈ ctx.strings ∨ x ∈ (if d then [s] else [])
    by_cases h : m.use_dedup && d
    · have hd : d = true := by
        rcases Bool.and_eq_true _ _ |>.mp h with ⟨_, h2⟩
        exact h2
      simp only [prescanValue, h, if_true] at hx
      rcases intern_mem s ctx x hx with h1 | h1
      · exact Or.inl h1
      · subst h1
        simp [hd]
    · simp only [prescanValue, h] at hx
      simp at hx
      exact Or.inl hx
  | vNone => exact Or.inl hx
  | vSome v => exact prescan_sub m d ctx v x hx
  | vList xs => exact prescan_sub_list m d ctx xs x hx
  | vStruct fs => exact prescan_sub_fields m d ctx fs x hx
  | vEnum dis pl => exact prescan_sub_list m d ctx pl x hx

theorem prescan_sub_list (m : Mode) (d : Bool) (ctx : DedupCtx) (xs : ValueList) :
    ∀ x ∈ (prescanList m d ctx xs).strings, x ∈ ctx.strings ∨ x ∈ dedupOccsAll d xs := by
  intro x hx
  cases xs with
  | nil => exact Or.inl hx
  | cons v vs =>
    show x ∈ ctx.strings ∨ x ∈ dedupOccs d v ++ dedupOccsAll d vs
    have hx1 : x ∈ (prescanList m d (prescanValue m d ctx v) vs).strings := hx
    rcases prescan_sub_list m d (prescanValue m d ctx v) vs x hx1 with h | h
    · rcases prescan_sub m d ctx v x h with h1 | h1
      · exact Or.inl h1
      · exact Or.inr (List.mem_append_left _ h1)
    · exact Or.inr (List.mem_append_right _ h)

theorem prescan_sub_fields (m : Mode) (d : Bool) (ctx : DedupCtx) (fs : FieldList) :
    ∀ x ∈ (prescanFields m d ctx fs).strings, x ∈ ctx.strings ∨ x ∈ dedupOccsFields d fs := by
  intro x hx
  cases fs with
  | nil => exact Or.inl hx
  | cons sk nd v fs =>
    show x ∈ ctx.strings ∨
      x ∈ (if sk then [] else dedupOccs (d && !nd) v) ++ dedupOccsFields d fs
    cases sk with
    | true =>
      rcases prescan_sub_fields m d ctx fs x hx with h | h
      · exact Or.inl h
      · exact Or.inr (List.mem_append_right _ h)
    | false =>
      have hx1 : x ∈ (prescanFields m d (prescanValue m (d && !nd) ctx v) fs).strings := hx
      rcases prescan_sub_fields m d (prescanValue m (d && !nd) ctx v) fs x hx1 with h | h
      · rcases prescan_sub m (d && !nd) ctx v x h with h1 | h1
        · exact Or.inl h1
        · exact Or.inr (List.mem_append_left _ h1)
      · exact Or.inr (List.mem_append_right _ h)

end

theorem prescan_table_wf (m : Mode) (v : Value) (t : Ty) (hwt : wt v t = true) :
    ∀ s ∈ (prescanValue m true DedupCtx.new v).strings, s.length < 2 ^ 64 := by
  intro s hs
  rcases prescan_sub m true DedupCtx.new v s hs with h | h
  · simp [DedupCtx.new] at h
  · exact wt_occs true v t hwt s h

mutual

theorem rt_val (m : Mode) (d : Bool) (ctx final : DedupCtx) (v : Value) (t : Ty)
    (rest : List Nat) (hwt : wt v t = true) (hlen : final.strings.length < 2 ^ 64)
    (hpre : ctxPrefixOf (prescanValue m d ctx v) final) :
    deserValue m d final t ((serValue m d ctx v).2 ++ rest) = .ok (scrub t v, rest) := by
  cases v with
  | vBool b =>
    cases t <;> simp [wt] at hwt
    cases b <;> simp [serValue, deserValue, scrub]
  | vU64 n =>
    cases t <;> simp [wt] at hwt
    have h70 : n < 2 ^ 70 := by norm_num at hwt ⊢; omega
    have h8 : n < 256 ^ 8 := by norm_num at hwt ⊢; omega
    by_cases hm : m.fixed_size_use_varint
    · simp [serValue, deserValue, scrub, hm, varint_roundtrip n rest h70]
    · simp [serValue, deserValue, scrub, hm, readLE_natToLE 8 n rest h8]
  | vI16 i =>
    cases t <;> simp [wt] at hwt
    by_cases hm : m.fixed_size_use_varint
    · have hz : zigzag i < 2 ^ 70 := by
        have := zigzag_lt i (by norm_num; omega) (by norm_num; omega)
        norm_num at this ⊢
        omega
      simp [serValue, deserValue, scrub, hm, varint_roundtrip (zigzag i) rest hz,
        unzigzag_zigzag]
    · have h2 : i16ToU16 i < 256 ^ 2 := by
        have := i16ToU16_lt i
        norm_num
        omega
      simp [serValue, deserValue, scrub, hm, readLE_natToLE 2 (i16ToU16 i) rest h2,
        u16ToI16_i16ToU16 i (by norm_num; omega) (by norm_num; omega)]
  | vStr s =>
    cases t <;> simp [wt] at hwt
    by_cases h : m.use_dedup && d
    · have hpre2 : ctxPrefixOf (DedupCtx.intern s ctx).2 final := by
        simpa [prescanValue, h] using hpre
      have hi : (DedupCtx.intern s ctx).1 < 2 ^ 70 := by
        have h1 := intern_lt s ctx
        have h2 := ctxPrefixOf_len hpre2
        norm_num at hlen ⊢
        omega
      have hget : final.strings[(DedupCtx.intern s ctx).1]? = some s :=
        ctxPrefixOf_get hpre2 (intern_get s ctx)
      simp [serValue, deserValue, h, varint_roundtrip _ rest hi, DedupCtx.lookup, hget, scrub]
    · have hlen70 : s.length < 2 ^ 70 := by
        have := hwt.1
        norm_num at this ⊢
        omega
      have hle : s.length ≤ (s ++ rest).length := by simp
      simp [serValue, deserValue, h, List.append_assoc,
        varint_roundtrip s.length (s ++ rest) hlen70, hle, List.take_left, List.drop_left, scrub]
  | vNone =>
    cases t <;> simp [wt] at hwt
    simp [serValue, deserValue, scrub]
  | vSome v =>
    cases t with
    | tOpt t =>
      rw [show wt (.vSome v) (.tOpt t) = wt v t from by simp [wt]] at hwt
      have ih := rt_val m d ctx final v t rest hwt hlen hpre
      show deserValue m d final (.tOpt t) ((255 :: (serValue m d ctx v).2) ++ rest) = _
      rw [List.cons_append]
      simp only [deserValue, ih, scrub]
      norm_num
    | tBool => simp [wt] at hwt
    | tU64 => simp [wt] at hwt
    | tI16 => simp [wt] at hwt
    | tStr => simp [wt] at hwt
    | tList t => simp [wt] at hwt
    | tStruct tfs => simp [wt] at hwt
    | tEnum vs => simp [wt] at hwt
  | vList xs =>
    cases t <;> simp [wt] at hwt
    next t =>
    have hlen70 : vlLength xs < 2 ^ 70 := by
      have := hwt.1
      norm_num at this ⊢
      omega
    have ih := rt_list m d ctx final xs t rest hwt.2 hlen hpre
    show deserValue m d final (.tList t)
      ((varintEncode (vlLength xs) ++ (serList m d ctx xs).2) ++ rest) = _
    rw [List.append_assoc]
    simp only [deserValue, varint_roundtrip (vlLength xs) _ hlen70, ih, scrub]
  | vStruct fs =>
    cases t <;> simp [wt] at hwt
    next tfs =>
    have ih := rt_fields m d ctx final fs tfs rest hwt hlen hpre
    show deserValue m d final (.tStruct tfs) ((serFields m d ctx fs).2 ++ rest) = _
    simp only [deserValue, ih, scrub]
  | vEnum dis pl =>
    cases t <;> simp [wt] at hwt
    next vs =>
    have h70 : dis < 2 ^ 70 := by
      have := hwt.1
      norm_num at this ⊢
      omega
    have ih := rt_variants m d ctx final pl vs dis rest hwt.2 hlen hpre
    show deserValue m d final (.tEnum vs)
      ((varintEncode dis ++ (serList m d ctx pl).2) ++ rest) = _
    rw [List.append_assoc]
    simp only [deserValue, varint_roundtrip dis _ h70, ih, scrub]

theorem rt_list (m : Mode) (d : Bool) (ctx final : DedupCtx) (xs : ValueList) (t : Ty)
    (rest : List Nat) (hwt : wtAll xs t = true) (hlen : final.strings.length < 2 ^ 64)
    (hpre : ctxPrefixOf (prescanList m d ctx xs) final) :
    deserN m d final t (vlLength xs) ((serList m d ctx xs).2 ++ rest) =
      .ok (scrubAll t xs, rest) := by
  cases xs with
  | nil => simp [serList, vlLength, deserN, scrubAll]
  | cons v vs =>
    rw [show wtAll (.cons v vs) t = (wt v t && wtAll vs t) from by simp [wtAll]] at hwt
    rw [Bool.and_eq_true] at hwt
    have hpre1 : ctxPrefixOf (prescanValue m d ctx v) final :=
      ctxPrefixOf_trans (prescan_extends_list m d (prescanValue m d ctx v) vs) hpre
    have ihv := rt_val m d ctx final v t
      ((serList m d (serValue m d ctx v).1 vs).2 ++ rest) hwt.1 hlen hpre1
    have hpre2 : ctxPrefixOf (prescanList m d (serValue m d ctx v).1 vs) final := by
      rw [ser_fst]
      exact hpre
    have ihl := rt_list m d (serValue m d ctx v).1 final vs t rest hwt.2 hlen hpre2
    show deserN m d final t (vlLength vs + 1)
      (((serValue m d ctx v).2 ++ (serList m d (serValue m d ctx v).1 vs).2) ++ rest) = _
    rw [List.append_assoc]
    simp only [deserN, ihv, ihl, scrubAll]

theorem rt_fields (m : Mode) (d : Bool) (ctx final : DedupCtx) (fs : FieldList)
    (tfs : TyFields) (rest : List Nat) (hwt : wtFields fs tfs = true)
    (hlen : final.strings.length < 2 ^ 64)
    (hpre : ctxPrefixOf (prescanFields m d ctx fs) final) :
    deserFields m d final tfs ((serFields m d ctx fs).2 ++ rest) =
      .ok (scrubFields tfs fs, rest) := by
  cases fs with
  | nil =>
    cases tfs with
    | nil => simp [serFields, deserFields, scrubFields]
    | cons sk2 nd2 t tfs => simp [wtFields] at hwt
  | cons sk nd v fs =>
    cases tfs with
    | nil => simp [wtFields] at hwt
    | cons sk2 nd2 t tfs =>
      rw [show wtFields (.cons sk nd v fs) (.cons sk2 nd2 t tfs) =
        (sk == sk2 && (nd == nd2) && wt v t && wtFields fs tfs) from by simp [wtFields]] at hwt
      simp only [Bool.and_eq_true, beq_iff_eq] at hwt
      obtain ⟨⟨⟨hsk, hnd⟩, hv⟩, hfs⟩ := hwt
      subst hsk
      subst hnd
      cases sk with
      | true =>
        have ih := rt_fields m d ctx final fs tfs rest hfs hlen hpre
        show deserFields m d final (.cons true nd t tfs) ((serFields m d ctx fs).2 ++ rest) =
          .ok (scrubFields (.cons true nd t tfs) (.cons true nd v fs), rest)
        simp only [deserFields, if_true, ih, scrubFields]
      | false =>
        have hpre1 : ctxPrefixOf (prescanValue m (d && !nd) ctx v) final :=
          ctxPrefixOf_trans
            (prescan_extends_fields m d (prescanValue m (d && !nd) ctx v) fs) hpre
        have ihv := rt_val m (d && !nd) ctx final v t
          ((serFields m d (serValue m (d && !nd) ctx v).1 fs).2 ++ rest) hv hlen hpre1
        have hpre2 : ctxPrefixOf (prescanFields m d (serValue m (d && !nd) ctx v).1 fs) final := by
          rw [ser_fst]
          exact hpre
        have ihf := rt_fields m d (serValue m (d && !nd) ctx v).1 final fs tfs rest hfs hlen hpre2
        show deserFields m d final (.cons false nd t tfs)
          (((serValue m (d && !nd) ctx v).2 ++
            (serFields m d (serValue m (d && !nd) ctx v).1 fs).2) ++ rest) =
          .ok (scrubFields (.cons false nd t tfs) (.cons false nd v fs), rest)
        rw [List.append_assoc]
        simp only [deserFields, Bool.false_eq_true, if_false, ihv, ihf, scrubFields]

theorem rt_payload (m : Mode) (d : Bool) (ctx final : DedupCtx) (pl : ValueList)
    (ts : TyList) (rest : List Nat) (hwt : wtPayload pl ts = true)
    (hlen : final.strings.length < 2 ^ 64)
    (hpre : ctxPrefixOf (prescanList m d ctx pl) final) :
    deserPayload m d final ts ((serList m d ctx pl).2 ++ rest) =
      .ok (scrubPayload ts pl, rest) := by
  cases pl with
  | nil =>
    cases ts with
    | nil => simp [serList, deserPayload, scrubPayload]
    | cons t ts => simp [wtPayload] at hwt
  | cons v vs =>
    cases ts with
    | nil => simp [wtPayload] at hwt
    | cons t ts =>
      rw [show wtPayload (.cons v vs) (.cons t ts) = (wt v t && wtPayload vs ts) from by
        simp [wtPayload]] at hwt
      rw [Bool.and_eq_true] at hwt
      have hpre1 : ctxPrefixOf (prescanValue m d ctx v) final :=
        ctxPrefixOf_trans (prescan_extends_list m d (prescanValue m d ctx v) vs) hpre
      have ihv := rt_val m d ctx final v t
        ((serList m d (serValue m d ctx v).1 vs).2 ++ rest) hwt.1 hlen hpre1
      have hpre2 : ctxPrefixOf (prescanList m d (serValue m d ctx v).1 vs) final := by
        rw [ser_fst]
        exact hpre
      have ihl := rt_payload m d (serValue m d ctx v).1 final vs ts rest hwt.2 hlen hpre2
      show deserPayload m d final (.cons t ts)
        (((serValue m d ctx v).2 ++ (serList m d (serValue m d ctx v).1 vs).2) ++ rest) = _
      rw [List.append_assoc]
      simp only [deserPayload, ihv, ihl, scrubPayload]

theorem rt_variants (m : Mode) (d : Bool) (ctx final : DedupCtx) (pl : ValueList)
    (vs : TyVariants) (dis : Nat) (rest : List Nat) (hwt : wtVariant dis pl vs = true)
    (hlen : final.strings.length < 2 ^ 64)
    (hpre : ctxPrefixOf (prescanList m d ctx pl) final) :
    deserVariants m d final vs dis ((serList m d ctx pl).2 ++ rest) =
      .ok (scrubVariant dis vs pl, rest) := by
  cases vs with
  | nil => simp [wtVariant] at hwt
  | cons p vs =>
    cases dis with
    | zero =>
      rw [show wtVariant 0 pl (TyVariants.cons p vs) = wtPayload pl p from by
        simp [wtVariant]] at hwt
      have ih := rt_payload m d ctx final pl p rest hwt hlen hpre
      show deserVariants m d final (.cons p vs) 0 ((serList m d ctx pl).2 ++ rest) =
        .ok (scrubVariant 0 (.cons p vs) pl, rest)
      simp only [deserVariants, ih, scrubVariant]
    | succ n =>
      rw [show wtVariant (n + 1) pl (TyVariants.cons p vs) = wtVariant n pl vs from by
        simp [wtVariant]] at hwt
      have ih := rt_variants m d ctx final pl vs n rest hwt hlen hpre
      show deserVariants m d final (.cons p vs) (n + 1) ((serList m d ctx pl).2 ++ rest) =
        .ok (scrubVariant (n + 1) (.cons p vs) pl, rest)
      simp only [deserVariants, ih, scrubVariant]

end

theorem roundtrip_with (v : Value) (t : Ty) (m : Mode) (hwt : wt v t = true)
    (htable : (prescanValue m true DedupCtx.new v).strings.length < 2 ^ 64) :
    deserialize_with t (serialize_with v m) m = .ok (scrub t v) := by
  unfold deserialize_with deserialize_with_from serialize_with serialize_with_into
  by_cases hm : m.use_dedup = true
  · have hwf := prescan_table_wf m v t hwt
    have hread := read_from_write_to (prescanValue m true DedupCtx.new v)
      ((serValue m true DedupCtx.new v).2) htable hwf
    rw [if_pos hm, if_pos hm]
    simp only [List.nil_append]
    rw [hread]
    have hmain := rt_val m true DedupCtx.new (prescanValue m true DedupCtx.new v) v t []
      hwt htable (ctxPrefixOf_refl _)
    rw [List.append_nil] at hmain
    simp only [hmain]
  · rw [if_neg hm, if_neg hm]
    simp only [List.nil_append]
    have hpre : ctxPrefixOf (prescanValue m true DedupCtx.new v) DedupCtx.new := by
      rw [prescan_no_dedup m true DedupCtx.new v (by simpa using hm)]
      exact ctxPrefixOf_refl _
    have hmain := rt_val m true DedupCtx.new DedupCtx.new v t [] hwt
      (by simp [DedupCtx.new]) hpre
    rw [List.append_nil] at hmain
    simp only [hmain]

theorem varint_len_pos (n : Nat) : 1 ≤ (varintEncode n).length := by
  rw [varintEncode, varintEncodeF]
  split <;> simp

theorem intern_single (s : List Nat) (ctx : DedupCtx)
    (hctx : ctx.strings = [] ∨ ctx.strings = [s]) :
    DedupCtx.intern s ctx = (0, ⟨[s]⟩) := by
  obtain ⟨l⟩ := ctx
  rcases hctx with h | h
  · have h2 : l = [] := h
    subst h2
    simp [DedupCtx.intern]
  · have h2 : l = [s] := h
    subst h2
    simp [DedupCtx.intern, listIndexOf]

mutual

theorem c6_val (s : List Nat) (d : Bool) (ctx0 ctx : DedupCtx) (v : Value)
    (hocc : ∀ x ∈ dedupOccs d v, x = s)
    (hctx : ctx.strings = [] ∨ ctx.strings = [s]) :
    (serValue Mode.default d ctx0 v).2.length =
      (serValue Mode.dedup d ctx v).2.length +
        (dedupOccs d v).length * ((varintEncode s.length).length + s.length - 1) ∧
    (serValue Mode.dedup d ctx v).1.strings =
      (if ctx.strings.isEmpty && (dedupOccs d v).isEmpty then [] else [s]) := by
  cases v with
  | vBool b =>
    rcases hctx with h | h <;> simp [serValue, dedupOccs, h]
  | vU64 n =>
    rcases hctx with h | h <;> simp [serValue, dedupOccs, h, Mode.default, Mode.dedup]
  | vI16 i =>
    rcases hctx with h | h <;> simp [serValue, dedupOccs, h, Mode.default, Mode.dedup]
  | vNone =>
    rcases hctx with h | h <;> simp [serValue, dedupOccs, h]
  | vStr str =>
    cases d with
    | false =>
      rcases hctx with h | h <;>
        simp [serValue, dedupOccs, h, Mode.default, Mode.dedup]
    | true =>
      have hstr : str = s := hocc str (by simp [dedupOccs])
      subst hstr
      have hint := intern_single str ctx hctx
      have hklen : 1 ≤ (varintEncode str.length).length := varint_len_pos _
      constructor
      · show (varintEncode str.length ++ str).length =
          (varintEncode (DedupCtx.intern str ctx).1).length +
            (dedupOccs true (.vStr str)).length *
              ((varintEncode str.length).length + str.length - 1)
        rw [hint]
        simp only [dedupOccs, if_true, List.length_singleton, List.length_append]
        show (varintEncode str.length).length + str.length =
          (varintEncode 0).length + 1 * ((varintEncode str.length).length + str.length - 1)
        rw [show varintEncode 0 = [0] from rfl]
        simp only [List.length_singleton, one_mul]
        omega
      · show (DedupCtx.intern str ctx).2.strings = _
        rw [hint]
        rcases hctx with h | h <;> simp [dedupOccs, h]
  | vSome v =>
    have := c6_val s d ctx0 ctx v hocc hctx
    have hoeq : dedupOccs d (Value.vSome v) = dedupOccs d v := rfl
    constructor
    · show (255 :: (serValue Mode.default d ctx0 v).2).length =
        (255 :: (serValue Mode.dedup d ctx v).2).length + _
      simp only [List.length_cons, hoeq]
      omega
    · rw [hoeq]
      exact this.2
  | vList xs =>
    have := c6_list s d ctx0 ctx xs hocc hctx
    have hoeq : dedupOccs d (Value.vList xs) = dedupOccsAll d xs := rfl
    constructor
    · show (varintEncode (vlLength xs) ++ (serList Mode.default d ctx0 xs).2).length =
        (varintEncode (vlLength xs) ++ (serList Mode.dedup d ctx xs).2).length + _
      simp only [List.length_append, hoeq]
      have h1 := this.1
      omega
    · rw [hoeq]
      exact this.2
  | vStruct fs =>
    exact c6_fields s d ctx0 ctx fs hocc hctx
  | vEnum dis pl =>
    have := c6_list s d ctx0 ctx pl hocc hctx
    have hoeq : dedupOccs d (Value.vEnum dis pl) = dedupOccsAll d pl := rfl
    constructor
    · show (varintEncode dis ++ (serList Mode.default d ctx0 pl).2).length =
        (varintEncode dis ++ (serList Mode.dedup d ctx pl).2).length + _
      simp only [List.length_append, hoeq]
      have h1 := this.1
      omega
    · rw [hoeq]
      exact this.2

theorem c6_list (s : List Nat) (d : Bool) (ctx0 ctx : DedupCtx) (xs : ValueList)
    (hocc : ∀ x ∈ dedupOccsAll d xs, x = s)
    (hctx : ctx.strings = [] ∨ ctx.strings = [s]) :
    (serList Mode.default d ctx0 xs).2.length =
      (serList Mode.dedup d ctx xs).2.length +
        (dedupOccsAll d xs).length * ((varintEncode s.length).length + s.length - 1) ∧
    (serList Mode.dedup d ctx xs).1.strings =
      (if ctx.strings.isEmpty && (dedupOccsAll d xs).isEmpty then [] else [s]) := by
  cases xs with
  | nil =>
    rcases hctx with h | h <;> simp [serList, dedupOccsAll, h]
  | cons v vs =>
    have hocc1 : ∀ x ∈ dedupOccs d v, x = s := fun x hx =>
      hocc x (by simp only [dedupOccsAll, List.mem_append]; exact Or.inl hx)
    have hocc2 : ∀ x ∈ dedupOccsAll d vs, x = s := fun x hx =>
      hocc x (by simp only [dedupOccsAll, List.mem_append]; exact Or.inr hx)
    have ihv := c6_val s d ctx0 ctx v hocc1 hctx
    have hctx1 : (serValue Mode.dedup d ctx v).1.strings = [] ∨
        (serValue Mode.dedup d ctx v).1.strings = [s] := by
      rw [ihv.2]
      split
      · exact Or.inl rfl
      · exact Or.inr rfl
    have ihl := c6_list s d (serValue Mode.default d ctx0 v).1
      (serValue Mode.dedup d ctx v).1 vs hocc2 hctx1
    constructor
    · show ((serValue Mode.default d ctx0 v).2 ++
        (serList Mode.default d (serValue Mode.default d ctx0 v).1 vs).2).length =
        ((serValue Mode.dedup d ctx v).2 ++
          (serList Mode.dedup d (serValue Mode.dedup d ctx v).1 vs).2).length +
          (dedupOccsAll d (.cons v vs)).length * _
      simp only [List.length_append]
      rw [show dedupOccsAll d (ValueList.cons v vs) = dedupOccs d v ++ dedupOccsAll d vs
        from rfl, List.length_append]
      have h1 := ihv.1
      have h2 := ihl.1
      rw [Nat.add_mul]
      omega
    · show (serList Mode.dedup d (serValue Mode.dedup d ctx v).1 vs).1.strings = _
      rw [ihl.2, ihv.2]
      rw [show dedupOccsAll d (ValueList.cons v vs) = dedupOccs d v ++ dedupOccsAll d vs
        from rfl]
      cases h1 : ctx.strings.isEmpty <;>
        cases h2 : (dedupOccs d v).isEmpty <;>
          cases h3 : (dedupOccsAll d vs).isEmpty <;>
            simp_all [List.isEmpty_iff, List.append_eq_nil]

theorem c6_fields (s : List Nat) (d : Bool) (ctx0 ctx : DedupCtx) (fs : FieldList)
    (hocc : ∀ x ∈ dedupOccsFields d fs, x = s)
    (hctx : ctx.strings = [] ∨ ctx.strings = [s]) :
    (serFields Mode.default d ctx0 fs).2.length =
      (serFields Mode.dedup d ctx fs).2.length +
        (dedupOccsFields d fs).length * ((varintEncode s.length).length + s.length - 1) ∧
    (serFields Mode.dedup d ctx fs).1.strings =
      (if ctx.strings.isEmpty && (dedupOccsFields d fs).isEmpty then [] else [s]) := by
  cases fs with
  | nil =>
    rcases hctx with h | h <;> simp [serFields, dedupOccsFields, h]
  | cons sk nd v fs =>
    cases sk with
    | true =>
      have hskip : dedupOccsFields d (FieldList.cons true nd v fs) = dedupOccsFields d fs := by
        simp [dedupOccsFields]
      have hocc2 : ∀ x ∈ dedupOccsFields d fs, x = s := fun x hx =>
        hocc x (by rw [hskip]; exact hx)
      have ih := c6_fields s d ctx0 ctx fs hocc2 hctx
      constructor
      · show (serFields Mode.default d ctx0 fs).2.length =
          (serFields Mode.dedup d ctx fs).2.length +
            (dedupOccsFields d (.cons true nd v fs)).length * _
        rw [hskip]
        exact ih.1
      · show (serFields Mode.dedup d ctx fs).1.strings = _
        rw [ih.2, hskip]
    | false =>
      have hcons : dedupOccsFields d (FieldList.cons false nd v fs) =
          dedupOccs (d && !nd) v ++ dedupOccsFields d fs := by
        simp [dedupOccsFields]
      have hocc1 : ∀ x ∈ dedupOccs (d && !nd) v, x = s := fun x hx =>
        hocc x (by rw [hcons]; exact List.mem_append_left _ hx)
      have hocc2 : ∀ x ∈ dedupOccsFields d fs, x = s := fun x hx =>
        hocc x (by rw [hcons]; exact List.mem_append_right _ hx)
      have ihv := c6_val s (d && !nd) ctx0 ctx v hocc1 hctx
      have hctx1 : (serValue Mode.dedup (d && !nd) ctx v).1.strings = [] ∨
          (serValue Mode.dedup (d && !nd) ctx v).1.strings = [s] := by
        rw [ihv.2]
        split
        · exact Or.inl rfl
        · exact Or.inr rfl
      have ihf := c6_fields s d (serValue Mode.default (d && !nd) ctx0 v).1
        (serValue Mode.dedup (d && !nd) ctx v).1 fs hocc2 hctx1
      constructor
      · show ((serValue Mode.default (d && !nd) ctx0 v).2 ++
          (serFields Mode.default d (serValue Mode.default (d && !nd) ctx0 v).1 fs).2).length =
          ((serValue Mode.dedup (d && !nd) ctx v).2 ++
            (serFields Mode.dedup d (serValue Mode.dedup (d && !nd) ctx v).1 fs).2).length +
            (dedupOccsFields d (.cons false nd v fs)).length * _
        simp only [List.length_append]
        rw [hcons, List.length_append]
        have h1 := ihv.1
        have h2 := ihf.1
        rw [Nat.add_mul]
        omega
      · show (serFields Mode.dedup d (serValue Mode.dedup (d && !nd) ctx v).1 fs).1.strings = _
        rw [ihf.2, ihv.2, hcons]
        cases h1 : ctx.strings.isEmpty <;>
          cases h2 : (dedupOccs (d && !nd) v).isEmpty <;>
            cases h3 : (dedupOccsFields d fs).isEmpty <;>
              simp_all [List.isEmpty_iff, List.append_eq_nil]

end

/-- A concrete value with two occurrences of a length-4 string next to
three further distinct strings: dedup mode pays one table-index byte
per unique single-occurrence string and ends up larger. -/
def dupExampleValue : Value :=
  .vList (.cons (.vStr [120, 120, 120, 120]) (.cons (.vStr [120, 120, 120, 120])
    (.cons (.vStr [97]) (.cons (.vStr [98]) (.cons (.vStr [99]) .nil)))))

/-- Claim C1 (counterexample): a struct with a `skip`-marked `u64`
field holding 1 does not round-trip under default mode: the decoder
fills the field with the default 0, so the claim's unconditional
round-trip equation fails on this value. -/
theorem c1_counterexample :
    ¬ (deserialize_with (.tStruct (.cons true false .tU64 .nil))
        (serialize_with (.vStruct (.cons true false (.vU64 1) .nil)) Mode.default)
        Mode.default =
      .ok (.vStruct (.cons true false (.vU64 1) .nil))) := by
  have heval : deserialize_with (.tStruct (.cons true false .tU64 .nil))
      (serialize_with (.vStruct (.cons true false (.vU64 1) .nil)) Mode.default)
      Mode.default =
      .ok (.vStruct (.cons true false (.vU64 0) .nil)) := by
    simp [deserialize_with, deserialize_with_from, serialize_with, serialize_with_into,
      Mode.default, deserValue, deserFields, defaultValue, serValue, serFields,
      prescanValue, DedupCtx.new]
  rw [heval]
  intro h
  simp at h

/-- Claim C1 (amended): deserializing the bytes produced by serializing
`v` under any mode yields `v` back, for every well-typed value `v` all
of whose `skip`-marked fields hold their type's default value
(`scrub t v = v`), provided the deduplicated-string count fits in 64
bits (always true of Rust values). -/
theorem c1_roundtrip (v : Value) (t : Ty) (m : Mode) (hwt : wt v t = true)
    (htable : (prescanValue m true DedupCtx.new v).strings.length < 2 ^ 64)
    (hskip : scrub t v = v) :
    deserialize_with t (serialize_with v m) m = .ok v := by
  have h := roundtrip_with v t m hwt htable
  rw [hskip] at h
  exact h

theorem c1_roundtrip_witness :
    wt (.vStr [97, 98]) .tStr = true ∧
    deserialize_with .tStr (serialize_with (.vStr [97, 98]) Mode.dedup) Mode.dedup =
      .ok (.vStr [97, 98]) :=
  ⟨by simp [wt], c1_roundtrip (.vStr [97, 98]) .tStr Mode.dedup (by simp [wt])
    (by decide) (by simp [scrub])⟩

/-- Claim C2: the varint codec encodes an unsigned 64-bit integer as
7-bit groups, least-significant group first, with the high bit set on
every byte but the last; decoding the encoding returns the integer and
the encoded length is exactly `ceil(bits_needed(n) / 7)` bytes, one
byte for `n = 0`. -/
theorem c2_varint (n : Nat) (rest : List Nat) (hn : n < 2 ^ 64) :
    varintDecode (varintEncode n ++ rest) = .ok (n, rest) ∧
    (varintEncode n).length = (if n = 0 then 1 else (Nat.log2 n + 1 + 6) / 7) ∧
    varintValue (varintEncode n) = n ∧
    (∀ b ∈ (varintEncode n).dropLast, 128 ≤ b ∧ b < 256) ∧
    (∀ b, (varintEncode n).getLast? = some b → b < 128) := by
  have h70 : n < 2 ^ 70 := by norm_num at hn ⊢; omega
  have hlen := varint_length n h70
  refine ⟨varint_roundtrip n rest h70, ?_, varint_structure n h70⟩
  rw [hlen]
  by_cases h0 : n = 0
  · simp [h0]
  · simp only [if_neg h0]
    omega

theorem c2_varint_witness :
    300 < 2 ^ 64 ∧ varintDecode (varintEncode 300 ++ [7]) = .ok (300, [7]) ∧
      (varintEncode 300).length = 2 :=
  ⟨by norm_num, (c2_varint 300 [7] (by norm_num)).1, by
    rw [(c2_varint 300 [7] (by norm_num)).2.1]
    norm_num [Nat.log2]⟩

/-- Claim C3: an index interned during a dedup write pass is strictly
below the count of every later state of the table (in particular of the
final written table, which resolves it to the interned string); looking
up an index at or above the count fails with `StrOutOfRange`; decoding
a dedup-mode string whose payload index is at or above the table count
fails with `StrOutOfRange`; and decoding any buffer the encoder
produced never fails. -/
theorem c3_index_bound :
    (∀ s ctx final, ctxPrefixOf (DedupCtx.intern s ctx).2 final →
      (DedupCtx.intern s ctx).1 < final.strings.length ∧
      final.strings[(DedupCtx.intern s ctx).1]? = some s) ∧
    (∀ ctx i, ctx.strings.length ≤ i →
      DedupCtx.lookup ctx i = .error (.StrOutOfRange i)) ∧
    (∀ ctx i rest, ctx.strings.length ≤ i → i < 2 ^ 64 →
      deserValue Mode.dedup true ctx .tStr (varintEncode i ++ rest) =
        .error (.StrOutOfRange i)) ∧
    (∀ v t m, wt v t = true →
      (prescanValue m true DedupCtx.new v).strings.length < 2 ^ 64 →
      ∃ w, deserialize_with t (serialize_with v m) m = .ok w) := by
  refine ⟨?_, ?_, ?_, ?_⟩
  · intro s ctx final hp
    exact ⟨lt_of_lt_of_le (intern_lt s ctx) (ctxPrefixOf_len hp),
      ctxPrefixOf_get hp (intern_get s ctx)⟩
  · intro ctx i hi
    simp [DedupCtx.lookup, List.getElem?_eq_none hi]
  · intro ctx i rest hi h64
    have h70 : i < 2 ^ 70 := by norm_num at h64 ⊢; omega
    simp [deserValue, Mode.dedup, varint_roundtrip i rest h70, DedupCtx.lookup,
      List.getElem?_eq_none hi]
  · intro v t m hwt htable
    exact ⟨scrub t v, roundtrip_with v t m hwt htable⟩

theorem c3_index_bound_witness :
    (⟨[[97]]⟩ : DedupCtx).strings.length ≤ 1 ∧
    deserValue Mode.dedup true ⟨[[97]]⟩ .tStr (varintEncode 1 ++ []) =
      .error (.StrOutOfRange 1) :=
  ⟨by decide, c3_index_bound.2.2.1 ⟨[[97]]⟩ 1 [] (by decide) (by decide)⟩

/-- Claim C4: the encoded stream is the optional dedup table followed
by the payload, the table present exactly when `use_dedup` is set and
written from the fully populated prescan context; on decode with
`use_dedup` the read-side context is fully read back from the stream
head (leaving exactly the payload) before any payload byte is
consumed. -/
theorem c4_wire_layout :
    (∀ v m, serialize_with v m =
      (if m.use_dedup then DedupCtx.write_to (prescanValue m true DedupCtx.new v)
        else []) ++ (serValue m true DedupCtx.new v).2) ∧
    (∀ ctx rest, ctx.strings.length < 2 ^ 64 → (∀ s ∈ ctx.strings, s.length < 2 ^ 64) →
      DedupCtx.read_from (DedupCtx.write_to ctx ++ rest) = .ok (ctx, rest)) ∧
    (∀ t pipe m, m.use_dedup = true →
      deserialize_with_from t pipe m =
        match DedupCtx.read_from pipe with
        | .ok (ctx, rest) => deserValue m true ctx t rest
        | .error e => .error e) := by
  refine ⟨?_, read_from_write_to, ?_⟩
  · intro v m
    by_cases hm : m.use_dedup = true <;>
      simp [serialize_with, serialize_with_into, hm]
  · intro t pipe m hm
    unfold deserialize_with_from
    rw [if_pos hm]

theorem c4_wire_layout_witness :
    (⟨[[97]]⟩ : DedupCtx).strings.length < 2 ^ 64 ∧
    DedupCtx.read_from (DedupCtx.write_to ⟨[[97]]⟩ ++ [5]) = .ok (⟨[[97]]⟩, [5]) :=
  ⟨by decide, c4_wire_layout.2.1 ⟨[[97]]⟩ [5] (by decide) (by decide)⟩

/-- Claim C5: the Base codec write pass reproduces exactly the
string-to-index assignment of the Prescan pass: starting from the same
context, the context state after writing any value, sequence or field
list equals the context state after prescanning it, so every string
occurrence interns to the identical index in both passes. -/
theorem c5_pass_agreement :
    (∀ m d ctx v, (serValue m d ctx v).1 = prescanValue m d ctx v) ∧
    (∀ m d ctx xs, (serList m d ctx xs).1 = prescanList m d ctx xs) ∧
    (∀ m d ctx fs, (serFields m d ctx fs).1 = prescanFields m d ctx fs) :=
  ⟨ser_fst, ser_fst_list, ser_fst_fields⟩

/-- Claim C6 (counterexample): `dupExampleValue` contains two
occurrences of the identical length-4 string `"xxxx"`, yet its dedup()
encoding (18 bytes) is strictly longer than its default() encoding
(17 bytes): the three further distinct strings each cost an extra
payload index byte without any saving. -/
theorem c6_counterexample :
    2 ≤ ((dedupOccs true dupExampleValue).count [120, 120, 120, 120]) ∧
    4 ≤ ([120, 120, 120, 120] : List Nat).length ∧
    (serialize_with dupExampleValue Mode.dedup).length = 18 ∧
    (serialize_with dupExampleValue Mode.default).length = 17 ∧
    ¬ ((serialize_with dupExampleValue Mode.dedup).length <
       (serialize_with dupExampleValue Mode.default).length) := by
  refine ⟨by decide, by decide, by decide, by decide, by decide⟩

/-- Claim C6 (amended): for a value whose dedup-eligible string
occurrences all are one identical string of length at least 4,
occurring at least twice, the dedup() encoding is strictly shorter than
the default() encoding. -/
theorem c6_dedup_smaller (v : Value) (s : List Nat)
    (hocc : ∀ x ∈ dedupOccs true v, x = s)
    (hk : 2 ≤ (dedupOccs true v).length) (hs : 4 ≤ s.length) :
    (serialize_with v Mode.dedup).length < (serialize_with v Mode.default).length := by
  have hc := c6_val s true DedupCtx.new DedupCtx.new v hocc (Or.inl rfl)
  have hocc_ne : (dedupOccs true v).isEmpty = false := by
    cases hde : dedupOccs true v with
    | nil => rw [hde] at hk; simp at hk
    | cons a l => simp
  have hpctx : (prescanValue Mode.dedup true DedupCtx.new v).strings = [s] := by
    rw [← ser_fst, hc.2]
    simp [DedupCtx.new, hocc_ne]
  have hser1 : serialize_with v Mode.dedup =
      DedupCtx.write_to (prescanValue Mode.dedup true DedupCtx.new v) ++
        (serValue Mode.dedup true DedupCtx.new v).2 := by
    simp [serialize_with, serialize_with_into, Mode.dedup]
  have hser2 : serialize_with v Mode.default =
      (serValue Mode.default true DedupCtx.new v).2 := by
    simp [serialize_with, serialize_with_into, Mode.default]
  have htab : (DedupCtx.write_to (prescanValue Mode.dedup true DedupCtx.new v)).length =
      1 + ((varintEncode s.length).length + s.length) := by
    rw [DedupCtx.write_to, hpctx]
    simp [writeEntries, show varintEncode 1 = [1] from rfl]
    omega
  have hK : 1 ≤ (varintEncode s.length).length := varint_len_pos _
  have hmul : 2 * ((varintEncode s.length).length + s.length - 1) ≤
      (dedupOccs true v).length * ((varintEncode s.length).length + s.length - 1) :=
    Nat.mul_le_mul_right _ hk
  rw [hser1, hser2, List.length_append, htab]
  have h1 := hc.1
  omega

theorem c6_dedup_smaller_witness :
    (∀ x ∈ dedupOccs true (Value.vList (.cons (.vStr [120, 120, 120, 120])
        (.cons (.vStr [120, 120, 120, 120]) .nil))), x = [120, 120, 120, 120]) ∧
    (serialize_with (Value.vList (.cons (.vStr [120, 120, 120, 120])
        (.cons (.vStr [120, 120, 120, 120]) .nil))) Mode.dedup).length <
      (serialize_with (Value.vList (.cons (.vStr [120, 120, 120, 120])
        (.cons (.vStr [120, 120, 120, 120]) .nil))) Mode.default).length :=
  ⟨by decide, c6_dedup_smaller (Value.vList (.cons (.vStr [120, 120, 120, 120])
      (.cons (.vStr [120, 120, 120, 120]) .nil))) [120, 120, 120, 120]
    (by decide) (by decide) (by decide)⟩

/-- Claim C7: a `skip`-marked field contributes zero bytes: the write
pass and the prescan pass are unchanged by removing the field (so its
content never reaches the stream and the position never advances), and
the read pass decodes the remaining fields from the untouched input,
filling the skipped field with its type's default value. -/
theorem c7_skip :
    (∀ m d ctx nd v fs, serFields m d ctx (.cons true nd v fs) = serFields m d ctx fs) ∧
    (∀ m d ctx nd v fs,
      prescanFields m d ctx (.cons true nd v fs) = prescanFields m d ctx fs) ∧
    (∀ m d ctx nd t tfs input,
      deserFields m d ctx (.cons true nd t tfs) input =
        match deserFields m d ctx tfs input with
        | .ok (fs1, rest) => .ok (.cons true nd (defaultValue t) fs1, rest)
        | .error e => .error e) := by
  refine ⟨fun m d ctx nd v fs => rfl, fun m d ctx nd v fs => rfl, ?_⟩
  intro m d ctx nd t tfs input
  simp [deserFields]

/-- Claim C8: under dedup() mode a string reached through a
`no_dedup`-marked field (dedup permission off) is encoded inline as
`varint(length) ++ bytes`, byte-identical to its encoding under
default() mode, both for the bare string write and for a whole
`no_dedup`-marked string field. -/
theorem c8_no_dedup :
    (∀ ctx s, serValue Mode.dedup false ctx (.vStr s) =
      (ctx, varintEncode s.length ++ s)) ∧
    (∀ d ctx s, serValue Mode.default d ctx (.vStr s) =
      (ctx, varintEncode s.length ++ s)) ∧
    (∀ d ctx s, (serFields Mode.dedup d ctx (.cons false true (.vStr s) .nil)).2 =
      (serFields Mode.default d ctx (.cons false true (.vStr s) .nil)).2) := by
  refine ⟨?_, ?_, ?_⟩
  · intro ctx s
    simp [serValue, Mode.dedup]
  · intro d ctx s
    simp [serValue, Mode.default]
  · intro d ctx s
    simp [serFields, serValue, Mode.dedup, Mode.default]

/-- Claim C9: the encoder's exact bytes on the documented constants:
`"abc"` under default mode is `[0x03, 0x61, 0x62, 0x63]`, `true` is
`[0xFF]`, `false` is `[0x00]`, and the `i16` slice `[1, -3, -35]` under
default+fixed_varint is `[0x03, 0x02, 0x05, 0x45]`. -/
theorem c9_constant_output :
    serialize (.vStr [97, 98, 99]) = [3, 97, 98, 99] ∧
    serialize (.vBool true) = [255] ∧
    serialize (.vBool false) = [0] ∧
    serialize_with
      (.vList (.cons (.vI16 1) (.cons (.vI16 (-3)) (.cons (.vI16 (-35)) .nil))))
      (Mode.default.with_fixed_size_use_varint true) = [3, 2, 5, 69] :=
  ⟨rfl, rfl, rfl, rfl⟩

/-- Claim C10: the default-mode entry points equal the explicit-mode
ones applied at `Mode.default`, and when `use_dedup` is off
deserialization reads no table bytes and runs against the empty
context. -/
theorem c10_default_entry_points :
    (∀ v, serialize v = serialize_with v Mode.default) ∧
    (∀ pipe v, serialize_into pipe v = serialize_with_into pipe v Mode.default) ∧
    (∀ t buf, deserialize t buf = deserialize_with t buf Mode.default) ∧
    (∀ t pipe, deserialize_from t pipe = deserialize_with_from t pipe Mode.default) ∧
    (∀ t pipe m, m.use_dedup = false →
      deserialize_with_from t pipe m = deserValue m true DedupCtx.new t pipe) := by
  refine ⟨fun v => rfl, fun pipe v => rfl, fun t buf => rfl, fun t pipe => rfl, ?_⟩
  intro t pipe m hm
  unfold deserialize_with_from
  rw [if_neg (by simp [hm])]

theorem c10_default_entry_points_witness :
    Mode.default.use_dedup = false ∧
    deserialize_with_from .tBool [255] Mode.default =
      deserValue Mode.default true DedupCtx.new .tBool [255] :=
  ⟨rfl, c10_default_entry_points.2.2.2.2 .tBool [255] Mode.default rfl⟩

end Binserde
